import Mathlib

/-!
Verification development for the real-time audiovisual compositor
(`src/components/VideoGenerator.tsx`).  The definitions below are shallow
embeddings of the component's pure helpers and of the per-frame driver
logic; strings are modelled as `List Char`, pixel/time quantities as `ℚ`,
and the canvas text-measurement primitive (`ctx.measureText`) as an
abstract function `List Char → ℚ`.
-/

/--
Embedding of `wrapText`'s character loop (VideoGenerator.tsx lines 69-80
and 296-307): greedy character-granular packing.  `m` is the abstract
`ctx.measureText` width function, `line` the accumulator, the second list
the remaining characters.  Mirrors
`if (ctx.measureText(line + char).width > maxWidth) { lines.push(line); line = char; } else line += char;`
followed by a final `lines.push(line)`.
-/
def wrapGo (m : List Char → ℚ) (maxWidth : ℚ) : List Char → List Char → List (List Char)
  | line, [] => [line]
  | line, c :: cs =>
    if m (line ++ [c]) > maxWidth then line :: wrapGo m maxWidth [c] cs
    else wrapGo m maxWidth (line ++ [c]) cs

/-- Embedding of `wrapText(ctx, text, maxWidth)`: the loop starts with the
empty accumulator `line = ''`. -/
def wrapText (m : List Char → ℚ) (text : List Char) (maxWidth : ℚ) : List (List Char) :=
  wrapGo m maxWidth [] text

theorem wrapGo_join (m : List Char → ℚ) (maxWidth : ℚ) :
    ∀ (rest line : List Char), (wrapGo m maxWidth line rest).flatten = line ++ rest := by
  intro rest
  induction rest with
  | nil => intro line; simp [wrapGo]
  | cons c cs ih =>
    intro line
    by_cases h : m (line ++ [c]) > maxWidth
    · simp [wrapGo, h, ih]
    · simp [wrapGo, h, ih]

/-- C2: for every text-measurement function, input text and width budget,
concatenating the lines produced by `wrapText`, in order, reproduces the
input text exactly — no character is dropped, duplicated or reordered. -/
theorem wrapText_join (m : List Char → ℚ) (text : List Char) (maxWidth : ℚ) :
    (wrapText m text maxWidth).flatten = text := by
  simpa using wrapGo_join m maxWidth text []

theorem wrapGo_ne_nil (m : List Char → ℚ) (maxWidth : ℚ) :
    ∀ (rest line : List Char), wrapGo m maxWidth line rest ≠ [] := by
  intro rest
  induction rest with
  | nil => intro line; simp [wrapGo]
  | cons c cs ih =>
    intro line
    by_cases h : m (line ++ [c]) > maxWidth
    · simp [wrapGo, h]
    · simp only [wrapGo, h, if_neg, ite_false]
      exact ih (line ++ [c])

theorem wrapGo_mem_ne_nil (m : List Char → ℚ) (maxWidth : ℚ) :
    ∀ (rest line : List Char), line ≠ [] →
      ∀ l ∈ wrapGo m maxWidth line rest, l ≠ [] := by
  intro rest
  induction rest with
  | nil => intro line hline l hl; simp [wrapGo] at hl; simpa [hl]
  | cons c cs ih =>
    intro line hline l hl
    by_cases h : m (line ++ [c]) > maxWidth
    · simp only [wrapGo, h, ite_true, List.mem_cons] at hl
      rcases hl with rfl | hl
      · exact hline
      · exact ih [c] (by simp) l hl
    · simp only [wrapGo, h, ite_false] at hl
      exact ih (line ++ [c]) (by simp) l hl

/-- C3 counterexample: the claim "no line returned by `wrapText` is empty
for non-empty input" is false.  With a measure that assigns each character
width 1 and a width budget of 0, the single-character input `"A"` yields
the line list `["", "A"]`: the loop pushes the still-empty accumulator
before starting a new line with the overflowing first character. -/
theorem wrapText_empty_line_cex :
    (['A'] : List Char) ≠ [] ∧
      [] ∈ wrapText (fun s => (s.length : ℚ)) ['A'] 0 := by
  constructor
  · decide
  · decide

/-- C3 amended: for non-empty input only the FIRST line can be empty —
every line after the first is non-empty — and the first line is empty
exactly when the measured width of the first character alone already
exceeds the budget. -/
theorem wrapText_tail_ne_nil (m : List Char → ℚ) (c : Char) (cs : List Char) (maxWidth : ℚ) :
    (∀ l ∈ (wrapText m (c :: cs) maxWidth).tail, l ≠ []) ∧
      ((wrapText m (c :: cs) maxWidth).head? = some [] ↔ m [c] > maxWidth) := by
  constructor
  · intro l hl
    by_cases h : m ([] ++ [c]) > maxWidth
    · simp only [wrapText, wrapGo, h, ite_true, List.tail_cons] at hl
      exact wrapGo_mem_ne_nil m maxWidth cs [c] (by simp) l hl
    · simp only [wrapText, wrapGo, h, ite_false] at hl
      exact wrapGo_mem_ne_nil m maxWidth cs ([] ++ [c]) (by simp) l (List.mem_of_mem_tail hl)
  · by_cases h : m ([] ++ [c]) > maxWidth
    · simp only [wrapText, wrapGo, h, ite_true, List.head?_cons]
      simpa using h
    · simp only [wrapText, wrapGo, h, ite_false]
      constructor
      · intro hhead
        have hmem : ([] : List Char) ∈ wrapGo m maxWidth ([] ++ [c]) cs :=
          List.mem_of_mem_head? hhead
        exact absurd rfl (wrapGo_mem_ne_nil m maxWidth cs ([] ++ [c]) (by simp) [] hmem)
      · intro hc
        exact absurd (by simpa using hc) h

theorem wrapText_tail_ne_nil_witness :
    (wrapText (fun s => (s.length : ℚ)) ['A'] 0).head? = some [] :=
  (wrapText_tail_ne_nil (fun s => (s.length : ℚ)) 'A' [] 0).2.mpr (by norm_num)

/-- Source-crop rectangle computed by `drawImageCover`. -/
structure Crop where
  sx : ℚ
  sy : ℚ
  sw : ℚ
  sh : ℚ
deriving DecidableEq, Repr

/--
Embedding of the crop-window arithmetic of `drawImageCover`
(VideoGenerator.tsx lines 86-90, identically lines 310-324): given source
dimensions `iw × ih` and canvas dimensions `w × h`, crop the overflowing
source dimension, centered, so the crop has the canvas's aspect ratio.
-/
def cropRect (iw ih w h : ℚ) : Crop :=
  let imgAspect := iw / ih
  let canvasAspect := w / h
  if imgAspect > canvasAspect then
    { sh := ih, sw := ih * canvasAspect, sx := (iw - ih * canvasAspect) / 2, sy := 0 }
  else
    { sw := iw, sh := iw / canvasAspect, sx := 0, sy := (ih - iw / canvasAspect) / 2 }

/--
Embedding of `drawImageCover`'s guard (VideoGenerator.tsx lines 83-85):
`if (imgWidth === 0 || imgHeight === 0) return;` — the visual layer is
skipped (`none`) before any division is performed; otherwise the crop
rectangle is computed and the draw proceeds.
-/
def coverCrop (iw ih w h : ℚ) : Option Crop :=
  if iw = 0 ∨ ih = 0 then none else some (cropRect iw ih w h)

/-- One compositing layer of the per-scene `draw` callback
(VideoGenerator.tsx lines 189-215), in paint order. -/
inductive SceneLayer where
  | bgClear : SceneLayer
  | visual : Crop → SceneLayer
  | gradientPlate : SceneLayer
  | subtitleText : SceneLayer
deriving DecidableEq, Repr

/--
Layer sequence painted by one invocation of the scene `draw` callback:
background clear, then (only when `drawImageCover` does not bail out) the
cover-fit visual, then the darkening gradient plate, then the subtitle
block.  `iw ih` are the dimensions reported by the scene's visual asset
(`videoWidth`/`videoHeight` for a video handle, `width`/`height` for an
image), `w h` the canvas dimensions.
-/
def sceneFrameLayers (iw ih w h : ℚ) : List SceneLayer :=
  [SceneLayer.bgClear] ++
    (match coverCrop iw ih w h with
      | none => []
      | some c => [SceneLayer.visual c]) ++
    [SceneLayer.gradientPlate, SceneLayer.subtitleText]

/-- C4: for positive source and canvas dimensions the crop rectangle
computed by `drawImageCover` has the canvas's aspect ratio
(`sw / sh = w / h`), lies fully inside the source bounds, and is centered:
the cropped-away overflow is split equally on both sides
(`2·sx = iw − sw` and `2·sy = ih − sh`). -/
theorem cropRect_cover (iw ih w h : ℚ)
    (hiw : 0 < iw) (hih : 0 < ih) (hw : 0 < w) (hh : 0 < h) :
    (cropRect iw ih w h).sw / (cropRect iw ih w h).sh = w / h ∧
    0 ≤ (cropRect iw ih w h).sx ∧
    (cropRect iw ih w h).sx + (cropRect iw ih w h).sw ≤ iw ∧
    0 ≤ (cropRect iw ih w h).sy ∧
    (cropRect iw ih w h).sy + (cropRect iw ih w h).sh ≤ ih ∧
    2 * (cropRect iw ih w h).sx = iw - (cropRect iw ih w h).sw ∧
    2 * (cropRect iw ih w h).sy = ih - (cropRect iw ih w h).sh := by
  have hih' := hih.ne'
  have hh' := hh.ne'
  have hw' := hw.ne'
  have hiw' := hiw.ne'
  unfold cropRect
  dsimp only
  split_ifs with hcase
  · have hlt : w * ih < iw * h := (div_lt_div_iff₀ hh hih).mp hcase
    have hswle : ih * (w / h) ≤ iw := by
      rw [mul_div_assoc', div_le_iff₀ hh]
      nlinarith
    refine ⟨?_, by linarith, by linarith, le_refl 0, by linarith, by ring, by ring⟩
    exact mul_div_cancel_left₀ _ hih'
  · have hle : iw / ih ≤ w / h := le_of_not_lt hcase
    have hmul : iw * h ≤ w * ih := (div_le_div_iff₀ hih hh).mp hle
    have hshle : iw / (w / h) ≤ ih := by
      rw [div_div_eq_mul_div, div_le_iff₀ hw]
      nlinarith
    refine ⟨?_, le_refl 0, by linarith, by linarith, by linarith, by ring, by ring⟩
    show iw / (iw / (w / h)) = w / h
    rw [div_div_eq_mul_div, mul_div_cancel_left₀ _ hiw']

theorem cropRect_cover_witness :
    ((0:ℚ) < 1920 ∧ (0:ℚ) < 1080 ∧ (0:ℚ) < 720 ∧ (0:ℚ) < 1280) ∧
      ((cropRect 1920 1080 720 1280).sw / (cropRect 1920 1080 720 1280).sh = 720 / 1280 ∧
       0 ≤ (cropRect 1920 1080 720 1280).sx ∧
       (cropRect 1920 1080 720 1280).sx + (cropRect 1920 1080 720 1280).sw ≤ 1920 ∧
       0 ≤ (cropRect 1920 1080 720 1280).sy ∧
       (cropRect 1920 1080 720 1280).sy + (cropRect 1920 1080 720 1280).sh ≤ 1080 ∧
       2 * (cropRect 1920 1080 720 1280).sx = 1920 - (cropRect 1920 1080 720 1280).sw ∧
       2 * (cropRect 1920 1080 720 1280).sy = 1080 - (cropRect 1920 1080 720 1280).sh) :=
  ⟨⟨by norm_num, by norm_num, by norm_num, by norm_num⟩,
    cropRect_cover 1920 1080 720 1280 (by norm_num) (by norm_num) (by norm_num) (by norm_num)⟩

/-- C6: when the scene's visual asset reports zero width or zero height
(e.g. an undecoded video handle with `videoWidth = 0`), `drawImageCover`
bails out before its divisions, so the frame is still rendered — the
visual layer alone is skipped while the background clear, gradient plate
and subtitle block are painted. -/
theorem zeroSizeAsset_skips_visual (iw ih w h : ℚ) (hzero : iw = 0 ∨ ih = 0) :
    coverCrop iw ih w h = none ∧
      sceneFrameLayers iw ih w h =
        [SceneLayer.bgClear, SceneLayer.gradientPlate, SceneLayer.subtitleText] := by
  have hc : coverCrop iw ih w h = none := by
    unfold coverCrop
    simp [hzero]
  exact ⟨hc, by simp [sceneFrameLayers, hc]⟩

theorem zeroSizeAsset_skips_visual_witness :
    coverCrop 0 1080 1280 720 = none ∧
      sceneFrameLayers 0 1080 1280 720 =
        [SceneLayer.bgClear, SceneLayer.gradientPlate, SceneLayer.subtitleText] :=
  zeroSizeAsset_skips_visual 0 1080 1280 720 (Or.inl rfl)

/-- Canvas height per aspect-ratio config (VideoGenerator.tsx line 27):
720 in portrait... no — 1280 in portrait (`9:16`), 720 in landscape. -/
def VH (short : Bool) : ℚ := if short then 1280 else 720

/-- Subtitle line height (line 28): 90px portrait, 75px landscape. -/
def LINE_HEIGHT (short : Bool) : ℚ := if short then 90 else 75

/-- Top of the clipped subtitle area (line 29): `VH * 0.72`. -/
def TEXT_AREA_Y (short : Bool) : ℚ := VH short * (72 / 100)

/-- Height of the visible subtitle window: the clip rectangle spans
`TEXT_AREA_Y .. VH` (line 204), so the window is `VH - TEXT_AREA_Y`. -/
def subtitleWindowHeight (short : Bool) : ℚ := VH short - TEXT_AREA_Y short

/-- `totalTextHeight = rawLines.length * LINE_HEIGHT` (line 201). -/
def totalTextHeight (short : Bool) (numLines : ℕ) : ℚ :=
  (numLines : ℚ) * LINE_HEIGHT short

/-- `maxScroll = Math.max(0, totalTextHeight - LINE_HEIGHT * 1.5)` (line 202). -/
def maxScroll (short : Bool) (numLines : ℕ) : ℚ :=
  max 0 (totalTextHeight short numLines - LINE_HEIGHT short * (3 / 2))

/-- `currentScrollY = p * maxScroll` (line 203). -/
def currentScrollY (short : Bool) (numLines : ℕ) (p : ℚ) : ℚ :=
  p * maxScroll short numLines

/-- Refinement-comparison definition following the WORDS of claim C5 (and
spec §4.3/§8 "scroll bound"): the claimed offset
`p * max(0, totalTextHeight - windowHeight * 1.5)` where `windowHeight` is
the visible subtitle window height `VH - TEXT_AREA_Y`.  To be compared
with `currentScrollY`, which the source computes from `LINE_HEIGHT`
instead of the window height. -/
def claimedScrollY (short : Bool) (numLines : ℕ) (p : ℚ) : ℚ :=
  p * max 0 (totalTextHeight short numLines - subtitleWindowHeight short * (3 / 2))

/-- C5 counterexample: the code scales by `LINE_HEIGHT * 1.5` (135px in
portrait), not by the visible-subtitle-window height times 1.5 (the window
is `1280 - 921.6 = 358.4`px, giving `537.6`).  For a 3-line caption at
`progress = 1` the code scrolls by 135 while the claimed formula yields 0. -/
theorem scrollY_claim_cex :
    currentScrollY true 3 1 = 135 ∧ claimedScrollY true 3 1 = 0 ∧
      currentScrollY true 3 1 ≠ claimedScrollY true 3 1 := by
  refine ⟨?_, ?_, ?_⟩ <;>
    norm_num [currentScrollY, claimedScrollY, maxScroll, totalTextHeight,
      subtitleWindowHeight, TEXT_AREA_Y, VH, LINE_HEIGHT]

/-- C5 amended: the auto-scroll offset equals
`p * max(0, totalTextHeight - LINE_HEIGHT * 1.5)` — the slack term is 1.5
LINE HEIGHTS, not 1.5 window heights — hence for `p ∈ [0,1]` it lies in
`[0, maxScroll]`, is 0 at `p = 0`, equals `maxScroll` at `p = 1`, and
(when `maxScroll` is positive) attains `maxScroll` only at `p = 1`. -/
theorem scrollY_linear_bounds (short : Bool) (numLines : ℕ) (p : ℚ)
    (hp0 : 0 ≤ p) (hp1 : p ≤ 1) :
    currentScrollY short numLines p =
      p * max 0 (totalTextHeight short numLines - LINE_HEIGHT short * (3 / 2)) ∧
    0 ≤ currentScrollY short numLines p ∧
    currentScrollY short numLines p ≤ maxScroll short numLines ∧
    (p = 0 → currentScrollY short numLines p = 0) ∧
    (p = 1 → currentScrollY short numLines p = maxScroll short numLines) ∧
    (0 < maxScroll short numLines →
      currentScrollY short numLines p = maxScroll short numLines → p = 1) := by
  have hM : 0 ≤ maxScroll short numLines := le_max_left 0 _
  refine ⟨rfl, mul_nonneg hp0 hM, mul_le_of_le_one_left hM hp1, ?_, ?_, ?_⟩
  · intro hp; simp [currentScrollY, hp]
  · intro hp; simp [currentScrollY, hp]
  · intro hpos heq
    have : p * maxScroll short numLines = 1 * maxScroll short numLines := by
      simpa [currentScrollY] using heq
    exact mul_right_cancel₀ (ne_of_gt hpos) this

theorem scrollY_linear_bounds_witness :
    ((0:ℚ) ≤ 1/2 ∧ (1/2:ℚ) ≤ 1) ∧
      (currentScrollY true 3 (1/2) =
        (1/2) * max 0 (totalTextHeight true 3 - LINE_HEIGHT true * (3 / 2)) ∧
      0 ≤ currentScrollY true 3 (1/2) ∧
      currentScrollY true 3 (1/2) ≤ maxScroll true 3 ∧
      ((1/2 : ℚ) = 0 → currentScrollY true 3 (1/2) = 0) ∧
      ((1/2 : ℚ) = 1 → currentScrollY true 3 (1/2) = maxScroll true 3) ∧
      (0 < maxScroll true 3 →
        currentScrollY true 3 (1/2) = maxScroll true 3 → (1/2 : ℚ) = 1)) :=
  ⟨⟨by norm_num, by norm_num⟩,
    scrollY_linear_bounds true 3 (1/2) (by norm_num) (by norm_num)⟩

/-- Fixed fade window on reaching the end of the last scene:
`const fadeTime = 2.0` (VideoGenerator.tsx line 173), in seconds. -/
def fadeTime : ℚ := 2

/-- Web Audio `linearRampToValueAtTime` semantics: between the scheduling
time `t0` (value `v0`) and the target time `t1` (value `v1`) the parameter
value at time `t` is the linear interpolation
`v0 + (v1 - v0) * (t - t0) / (t1 - t0)`. -/
def linearRampValue (v0 v1 t0 t1 t : ℚ) : ℚ :=
  v0 + (v1 - v0) * ((t - t0) / (t1 - t0))

/-- Background-music gain envelope scheduled when the last scene ends
(lines 174-178): `setValueAtTime(bgmVolume, now)` followed by
`linearRampToValueAtTime(0, now + fadeTime)`. -/
def bgmFadeGain (bgmVolume now t : ℚ) : ℚ :=
  linearRampValue bgmVolume 0 now (now + fadeTime) t

/-- The recorder stop is scheduled `fadeTime * 1000` milliseconds after
the fade is issued: `setTimeout(() => ... stop(), fadeTime * 1000)`
(line 179); expressed in seconds after `now`. -/
def recorderStopAt (now : ℚ) : ℚ := now + (fadeTime * 1000) / 1000

/-- C7: over the 2-second fade window the background-music gain ramps
linearly from the configured volume down to exactly 0, never takes a
negative value (nor exceeds the configured volume), and the capture
recorder is stopped no earlier than the end of the fade window. -/
theorem bgm_fade_ramp (v now t : ℚ) (hv : 0 ≤ v) (h1 : now ≤ t)
    (h2 : t ≤ now + fadeTime) :
    bgmFadeGain v now now = v ∧
    bgmFadeGain v now (now + fadeTime) = 0 ∧
    0 ≤ bgmFadeGain v now t ∧
    bgmFadeGain v now t ≤ v ∧
    now + fadeTime ≤ recorderStopAt now := by
  have h2' : t ≤ now + 2 := by simpa [fadeTime] using h2
  have key : ∀ s : ℚ, bgmFadeGain v now s = v - v * ((s - now) / 2) := by
    intro s
    unfold bgmFadeGain linearRampValue fadeTime
    ring_nf
  have hstep : (0:ℚ) ≤ v * ((t - now) / 2) :=
    mul_nonneg hv (div_nonneg (sub_nonneg.mpr h1) (by norm_num))
  have hrem : v * ((t - now) / 2) ≤ v := by nlinarith
  refine ⟨?_, ?_, ?_, ?_, ?_⟩
  · rw [key]; ring
  · rw [key]; simp only [fadeTime]; ring
  · rw [key]; linarith
  · rw [key]; linarith
  · norm_num [recorderStopAt, fadeTime]

theorem bgm_fade_ramp_witness :
    ((0:ℚ) ≤ 1/2 ∧ (0:ℚ) ≤ 1 ∧ (1:ℚ) ≤ 0 + fadeTime) ∧
      (bgmFadeGain (1/2) 0 0 = 1/2 ∧
      bgmFadeGain (1/2) 0 (0 + fadeTime) = 0 ∧
      0 ≤ bgmFadeGain (1/2) 0 1 ∧
      bgmFadeGain (1/2) 0 1 ≤ 1/2 ∧
      (0:ℚ) + fadeTime ≤ recorderStopAt 0) :=
  ⟨⟨by norm_num, by norm_num, by norm_num [fadeTime]⟩,
    bgm_fade_ramp (1/2) 0 1 (by norm_num) (by norm_num) (by norm_num [fadeTime])⟩

/-- Outcome of one scene's image promise (lines 40-46): either `onload`
fires (`resolve`) or `onerror` fires (`reject(new Error("Image failed"))`). -/
inductive ImgLoad where
  | loaded : ImgLoad
  | failed : ImgLoad
deriving DecidableEq, Repr

/-- Outcome of one scene's video promise (lines 50-58): it resolves only
via `oncanplaythrough`; no error handler is attached, so a video that
fails to load leaves its promise pending forever. -/
inductive VidLoad where
  | canplay : VidLoad
  | pending : VidLoad
deriving DecidableEq, Repr

/--
Whether `loadAssets` (lines 36-67) ever runs `setIsAssetsReady(true)`:
the `Promise.all` of all image promises and all (present) video promises
must resolve, i.e. every image fired `onload` and every scene with a
`videoUrl` reached `canplaythrough`.  A rejected image promise lands in
the `catch` (which only logs) and a stalled video promise never settles —
in both failure modes the ready gate is never set.  `none` in `vids`
models a scene without `videoUrl` (`Promise.resolve(null)`).
-/
def isAssetsReadySet (imgs : List ImgLoad) (vids : List (Option VidLoad)) : Bool :=
  imgs.all (fun i => i == ImgLoad.loaded) &&
    vids.all (fun v => v == none || v == some VidLoad.canplay)

/-- The driver gate (line 223):
`useEffect(() => { if (isRecording && isAssetsReady) run(); ...)` — `run`
is the only code path that constructs and starts the capture recorder. -/
def recordingStarts (isRecording : Bool) (imgs : List ImgLoad)
    (vids : List (Option VidLoad)) : Bool :=
  isRecording && isAssetsReadySet imgs vids

/-- C8: asset loading is all-or-nothing — the ready gate is set only when
every scene's image loaded and every present video reached a playable
state; if any single image fails, or any present video never becomes
playable, the gate is never set and the driver never starts the capture
recorder, so no partial capture output is produced. -/
theorem assets_fail_fast (imgs : List ImgLoad) (vids : List (Option VidLoad))
    (isRecording : Bool) :
    (isAssetsReadySet imgs vids = true ↔
      ((∀ i ∈ imgs, i = ImgLoad.loaded) ∧
        (∀ v ∈ vids, v = none ∨ v = some VidLoad.canplay))) ∧
    (ImgLoad.failed ∈ imgs →
      isAssetsReadySet imgs vids = false ∧
        recordingStarts isRecording imgs vids = false) ∧
    (some VidLoad.pending ∈ vids →
      isAssetsReadySet imgs vids = false ∧
        recordingStarts isRecording imgs vids = false) := by
  have hiff : isAssetsReadySet imgs vids = true ↔
      ((∀ i ∈ imgs, i = ImgLoad.loaded) ∧
        (∀ v ∈ vids, v = none ∨ v = some VidLoad.canplay)) := by
    simp [isAssetsReadySet, List.all_eq_true]
  refine ⟨hiff, ?_, ?_⟩
  · intro hmem
    have hfalse : isAssetsReadySet imgs vids = false := by
      cases h : isAssetsReadySet imgs vids with
      | false => rfl
      | true => exact absurd ((hiff.mp h).1 _ hmem) (by decide)
    exact ⟨hfalse, by simp [recordingStarts, hfalse]⟩
  · intro hmem
    have hfalse : isAssetsReadySet imgs vids = false := by
      cases h : isAssetsReadySet imgs vids with
      | false => rfl
      | true =>
        rcases (hiff.mp h).2 _ hmem with hc | hc <;> exact absurd hc (by decide)
    exact ⟨hfalse, by simp [recordingStarts, hfalse]⟩

theorem assets_fail_fast_witness :
    (isAssetsReadySet [ImgLoad.loaded, ImgLoad.failed] [none] = false ∧
      recordingStarts true [ImgLoad.loaded, ImgLoad.failed] [none] = false) ∧
    (isAssetsReadySet [ImgLoad.loaded] [some VidLoad.pending] = false ∧
      recordingStarts true [ImgLoad.loaded] [some VidLoad.pending] = false) :=
  ⟨(assets_fail_fast [ImgLoad.loaded, ImgLoad.failed] [none] true).2.1 (by decide),
    (assets_fail_fast [ImgLoad.loaded] [some VidLoad.pending] true).2.2 (by decide)⟩

/-- Per-frame progress (VideoGenerator.tsx line 190, intro variant line
138): `const p = Math.min(elapsed / dur, 1)`. -/
def progressOf (dur elapsed : ℚ) : ℚ := min (elapsed / dur) 1

/--
Progress values passed to the renderer across one scene segment: the
frame loop `draw` (lines 189-218) receives the non-decreasing elapsed
times of successive animation frames, renders every frame at
`p = progressOf dur elapsed`, reschedules while `p < 1`, and hands over to
`playNext()` right after the frame rendered with `p = 1` (line 216).  The
result is the list of progress values actually rendered before the driver
advances.
-/
def segmentFrames (dur : ℚ) : List ℚ → List ℚ
  | [] => []
  | e :: es =>
    if progressOf dur e < 1 then progressOf dur e :: segmentFrames dur es
    else [progressOf dur e]

/-- Intro variant of the frame loop (lines 136-163): same rendering, but
the continue condition is `elapsed < INTRO_DURATION` (line 161) instead of
`p < 1`. -/
def introFrames (dur : ℚ) : List ℚ → List ℚ
  | [] => []
  | e :: es =>
    if e < dur then progressOf dur e :: introFrames dur es
    else [progressOf dur e]

theorem segmentFrames_cons (dur e : ℚ) (es : List ℚ) :
    segmentFrames dur (e :: es) =
      if progressOf dur e < 1 then progressOf dur e :: segmentFrames dur es
      else [progressOf dur e] := rfl

theorem introFrames_cons (dur e : ℚ) (es : List ℚ) :
    introFrames dur (e :: es) =
      if e < dur then progressOf dur e :: introFrames dur es
      else [progressOf dur e] := rfl

theorem progressOf_lt_one_iff (dur e : ℚ) (hd : 0 < dur) :
    progressOf dur e < 1 ↔ e < dur := by
  simp [progressOf, min_lt_iff, div_lt_one hd]

theorem progressOf_nonneg (dur e : ℚ) (hd : 0 < dur) (he : 0 ≤ e) :
    0 ≤ progressOf dur e :=
  le_min (div_nonneg he hd.le) zero_le_one

theorem progressOf_le_one (dur e : ℚ) : progressOf dur e ≤ 1 :=
  min_le_right _ _

theorem progressOf_mono (dur e e' : ℚ) (hd : 0 < dur) (h : e ≤ e') :
    progressOf dur e ≤ progressOf dur e' := by
  unfold progressOf
  gcongr

theorem segmentFrames_ne_nil (dur e : ℚ) (es : List ℚ) :
    segmentFrames dur (e :: es) ≠ [] := by
  rw [segmentFrames_cons]
  split <;> simp

theorem segmentFrames_head? (dur e : ℚ) (es : List ℚ) :
    (segmentFrames dur (e :: es)).head? = some (progressOf dur e) := by
  rw [segmentFrames_cons]
  split <;> simp

theorem getLast?_cons_of_ne_nil {α : Type} (x : α) (l : List α) (hl : l ≠ []) :
    (x :: l).getLast? = l.getLast? := by
  cases l with
  | nil => exact absurd rfl hl
  | cons y ys => exact List.getLast?_cons_cons

/-- C1: across one segment (scene or intro) the renderer is called with
`p = min(elapsed / dur, 1)`; given a non-decreasing, non-negative frame
clock that eventually reaches the segment duration, the rendered progress
sequence lies in `[0,1]`, is non-decreasing, contains the value 1 exactly
once, and that `p = 1` frame is the last one rendered before the driver
advances; the intro loop (whose continue condition is
`elapsed < duration`) renders the identical sequence. -/
theorem segment_progress_exact (dur : ℚ) (ts : List ℚ) (hd : 0 < dur)
    (hchain : List.Chain' (· ≤ ·) ts) (hnn : ∀ e ∈ ts, 0 ≤ e)
    (hreach : ∃ e ∈ ts, dur ≤ e) :
    (∀ q ∈ segmentFrames dur ts, 0 ≤ q ∧ q ≤ 1) ∧
    List.Chain' (· ≤ ·) (segmentFrames dur ts) ∧
    (segmentFrames dur ts).count 1 = 1 ∧
    (segmentFrames dur ts).getLast? = some 1 ∧
    introFrames dur ts = segmentFrames dur ts := by
  revert hchain hnn hreach
  induction ts with
  | nil =>
    intro _ _ hreach
    simp at hreach
  | cons e es ih =>
    intro hchain hnn hreach
    by_cases hcase : progressOf dur e < 1
    · have helt : e < dur := (progressOf_lt_one_iff dur e hd).mp hcase
      have hreach' : ∃ x ∈ es, dur ≤ x := by
        rcases hreach with ⟨x, hx, hdx⟩
        rcases List.mem_cons.mp hx with rfl | hx'
        · exact absurd hdx (by linarith)
        · exact ⟨x, hx', hdx⟩
      have hchain' : List.Chain' (· ≤ ·) es := hchain.tail
      have hnn' : ∀ x ∈ es, 0 ≤ x := fun x hx => hnn x (List.mem_cons_of_mem _ hx)
      obtain ⟨ih1, ih2, ih3, ih4, ih5⟩ := ih hchain' hnn' hreach'
      obtain ⟨a, es', rfl⟩ : ∃ a es', es = a :: es' := by
        rcases hreach' with ⟨x, hx, _⟩
        cases es with
        | nil => simp at hx
        | cons a es' => exact ⟨a, es', rfl⟩
      have hseg : segmentFrames dur (e :: a :: es') =
          progressOf dur e :: segmentFrames dur (a :: es') := by
        rw [segmentFrames_cons, if_pos hcase]
      refine ⟨?_, ?_, ?_, ?_, ?_⟩
      · intro q hq
        rw [hseg] at hq
        rcases List.mem_cons.mp hq with rfl | hq'
        · exact ⟨progressOf_nonneg dur e hd (hnn e (by simp)), progressOf_le_one dur e⟩
        · exact ih1 q hq'
      · rw [hseg]
        refine List.chain'_cons'.mpr ⟨?_, ih2⟩
        intro y hy
        rw [segmentFrames_head?] at hy
        cases hy
        exact progressOf_mono dur e a hd (List.chain'_cons.mp hchain).1
      · rw [hseg, List.count_cons]
        simp [ih3, (ne_of_lt hcase)]
      · rw [hseg, getLast?_cons_of_ne_nil _ _ (segmentFrames_ne_nil dur a es')]
        exact ih4
      · rw [hseg, introFrames_cons, if_pos helt, ih5]
    · have hp1 : progressOf dur e = 1 :=
        le_antisymm (progressOf_le_one dur e) (not_lt.mp hcase)
      have hed : ¬ e < dur := fun hlt =>
        hcase ((progressOf_lt_one_iff dur e hd).mpr hlt)
      have hseg : segmentFrames dur (e :: es) = [1] := by
        rw [segmentFrames_cons, if_neg hcase, hp1]
      have hintro : introFrames dur (e :: es) = [1] := by
        rw [introFrames_cons, if_neg hed, hp1]
      rw [hseg, hintro]
      refine ⟨?_, ?_, ?_, ?_, rfl⟩
      · intro q hq
        rcases List.mem_singleton.mp hq with rfl
        norm_num
      · simp
      · simp
      · simp

theorem segment_progress_exact_witness :
    ((0:ℚ) < 1000 ∧ List.Chain' (· ≤ ·) [(0:ℚ), 400, 1000, 1600] ∧
      (∀ e ∈ [(0:ℚ), 400, 1000, 1600], 0 ≤ e) ∧
      ∃ e ∈ [(0:ℚ), 400, 1000, 1600], 1000 ≤ e) ∧
    ((∀ q ∈ segmentFrames 1000 [(0:ℚ), 400, 1000, 1600], 0 ≤ q ∧ q ≤ 1) ∧
      List.Chain' (· ≤ ·) (segmentFrames 1000 [(0:ℚ), 400, 1000, 1600]) ∧
      (segmentFrames 1000 [(0:ℚ), 400, 1000, 1600]).count 1 = 1 ∧
      (segmentFrames 1000 [(0:ℚ), 400, 1000, 1600]).getLast? = some 1 ∧
      introFrames 1000 [(0:ℚ), 400, 1000, 1600] =
        segmentFrames 1000 [(0:ℚ), 400, 1000, 1600]) :=
  ⟨⟨by norm_num, by norm_num [List.chain'_cons], by decide, by decide⟩,
    segment_progress_exact 1000 [(0:ℚ), 400, 1000, 1600] (by norm_num)
      (by norm_num [List.chain'_cons]) (by decide) (by decide)⟩

/--
Substring test: `containsSub pat l` is true iff `pat` occurs contiguously
in `l` — the semantics of JavaScript `String.includes(pat)` and of a
global literal regex finding at least one match.  Defined by scanning
every suffix for a prefix match.
-/
def containsSub (pat : List Char) : List Char → Bool
  | [] => pat.isEmpty
  | c :: cs => pat.isPrefixOf (c :: cs) || containsSub pat cs

/--
Embedding of JavaScript `String.replace` with a global literal pattern
(`result.replace(reg, "●●")`, VideoGenerator.tsx lines 289-292): scan left
to right; on a match emit the replacement once and continue right after
the matched span (leftmost, non-overlapping); otherwise copy the
character.  The `ℕ` argument counts characters of a matched span still to
be skipped.
-/
def replaceGo (pat rep : List Char) : List Char → ℕ → List Char
  | [], _ => []
  | _ :: cs, k + 1 => replaceGo pat rep cs k
  | c :: cs, 0 =>
    if pat.isPrefixOf (c :: cs) then rep ++ replaceGo pat rep cs (pat.length - 1)
    else c :: replaceGo pat rep cs 0

/-- `s.replace(/pat/g, rep)` for a literal pattern `pat`. -/
def replaceAll (pat rep s : List Char) : List Char := replaceGo pat rep s 0

theorem containsSub_nil (pat : List Char) : containsSub pat [] = pat.isEmpty := rfl

theorem containsSub_cons (pat : List Char) (c : Char) (cs : List Char) :
    containsSub pat (c :: cs) = (pat.isPrefixOf (c :: cs) || containsSub pat cs) := rfl

theorem replaceGo_skip (pat rep : List Char) :
    ∀ (s : List Char) (k : ℕ), replaceGo pat rep s k = replaceGo pat rep (s.drop k) 0 := by
  intro s
  induction s with
  | nil => intro k; simp [replaceGo]
  | cons c cs ih =>
    intro k
    cases k with
    | zero => rfl
    | succ k =>
      show replaceGo pat rep cs k = _
      rw [ih k]
      simp

theorem replaceAll_nil (pat rep : List Char) : replaceAll pat rep [] = [] := rfl

theorem replaceAll_cons (pat rep : List Char) (c : Char) (cs : List Char) :
    replaceAll pat rep (c :: cs) =
      if pat.isPrefixOf (c :: cs) then
        rep ++ replaceAll pat rep (cs.drop (pat.length - 1))
      else c :: replaceAll pat rep cs := by
  show replaceGo pat rep (c :: cs) 0 = _
  show (if pat.isPrefixOf (c :: cs) then rep ++ replaceGo pat rep cs (pat.length - 1)
    else c :: replaceGo pat rep cs 0) = _
  rw [replaceGo_skip pat rep cs (pat.length - 1)]
  rfl

/-- The red "high-impact" word list (VideoGenerator.tsx line 33). -/
def POWER_WORDS_RED : List (List Char) :=
  ["死".data, "血".data, "殺".data, "絶望".data, "闇".data, "裏側".data,
    "呪".data, "禁断".data, "裏切り".data, "消失".data, "謎".data]

/-- The yellow "high-impact" word list (VideoGenerator.tsx line 34). -/
def POWER_WORDS_YELLOW : List (List Char) :=
  ["真実".data, "神".data, "宝".data, "黄金".data, "秘密".data, "奇跡".data,
    "衝撃".data, "閲覧注意".data, "最後".data]

/--
Fill color chosen for one subtitle line (VideoGenerator.tsx lines 210-213):
`let color = 'white'; if (POWER_WORDS_RED.some(w => l.includes(w))) color = '#ff3333';
else if (POWER_WORDS_YELLOW.some(w => l.includes(w))) color = '#ffff00';`
-/
def lineColor (l : List Char) : String :=
  if POWER_WORDS_RED.any (fun w => containsSub w l) then "#ff3333"
  else if POWER_WORDS_YELLOW.any (fun w => containsSub w l) then "#ffff00"
  else "white"

/-- C10: subtitle fill color is decided first-match-wins with red taking
precedence — a line containing a red-list word is filled `#ff3333`
(regardless of yellow-list hits), otherwise a yellow-list hit gives
`#ffff00`, otherwise `white`. -/
theorem lineColor_precedence (l : List Char) :
    (POWER_WORDS_RED.any (fun w => containsSub w l) = true →
      lineColor l = "#ff3333") ∧
    (POWER_WORDS_RED.any (fun w => containsSub w l) = false →
      POWER_WORDS_YELLOW.any (fun w => containsSub w l) = true →
      lineColor l = "#ffff00") ∧
    (POWER_WORDS_RED.any (fun w => containsSub w l) = false →
      POWER_WORDS_YELLOW.any (fun w => containsSub w l) = false →
      lineColor l = "white") ∧
    (POWER_WORDS_RED.any (fun w => containsSub w l) = true →
      POWER_WORDS_YELLOW.any (fun w => containsSub w l) = true →
      lineColor l = "#ff3333") := by
  refine ⟨?_, ?_, ?_, ?_⟩
  · intro hr; simp [lineColor, hr]
  · intro hr hy; simp [lineColor, hr, hy]
  · intro hr hy; simp [lineColor, hr, hy]
  · intro hr _; simp [lineColor, hr]

theorem lineColor_precedence_witness :
    lineColor ("死の真実".data) = "#ff3333" ∧
      lineColor ("真実".data) = "#ffff00" ∧
      lineColor ("こんにちは".data) = "white" :=
  ⟨(lineColor_precedence ("死の真実".data)).2.2.2 (by decide) (by decide),
    (lineColor_precedence ("真実".data)).2.1 (by decide) (by decide),
    (lineColor_precedence ("こんにちは".data)).2.2.1 (by decide) (by decide)⟩

theorem containsSub_nil_of_ne (pat : List Char) (hpat : pat ≠ []) :
    containsSub pat [] = false := by
  cases pat with
  | nil => exact absurd rfl hpat
  | cons a t => rfl

theorem containsSub_rep_append (q rep X : List Char) (hq : q ≠ [])
    (hdis : ∀ c ∈ rep, c ∉ q) :
    containsSub q (rep ++ X) = containsSub q X := by
  induction rep with
  | nil => simp
  | cons r rs ih =>
    obtain ⟨a, q', rfl⟩ : ∃ a q', q = a :: q' := by
      cases q with
      | nil => exact absurd rfl hq
      | cons a q' => exact ⟨a, q', rfl⟩
    have hra : (a == r) = false := by
      refine beq_eq_false_iff_ne.mpr ?_
      intro h
      exact hdis r (List.mem_cons_self r rs) (by simp [← h])
    rw [List.cons_append, containsSub_cons, List.isPrefixOf_cons₂, hra]
    simp only [Bool.false_and, Bool.false_or]
    exact ih (fun c hc => hdis c (List.mem_cons_of_mem _ hc))

theorem containsSub_of_drop (q : List Char) :
    ∀ (l : List Char) (n : ℕ),
      containsSub q (l.drop n) = true → containsSub q l = true := by
  intro l
  induction l with
  | nil => intro n h; rw [List.drop_nil] at h; exact h
  | cons c cs ih =>
    intro n h
    cases n with
    | zero => exact h
    | succ n =>
      rw [List.drop_succ_cons] at h
      rw [containsSub_cons, ih n h, Bool.or_true]

theorem prefix_transfer (pat rep : List Char) (hrep : rep ≠ []) :
    ∀ (n : ℕ) (cs : List Char), cs.length ≤ n → ∀ q' : List Char, q' ≠ [] →
      (∀ a ∈ q', a ∉ rep) → q' <+: replaceAll pat rep cs → q' <+: cs := by
  intro n
  induction n with
  | zero =>
    intro cs hlen q' hq' _ hpre
    have hnil : cs = [] := List.length_eq_zero.mp (Nat.le_zero.mp hlen)
    subst hnil
    rw [replaceAll_nil] at hpre
    exact absurd (List.prefix_nil.mp hpre) hq'
  | succ n ihn =>
    intro cs hlen q' hq' hdis hpre
    cases cs with
    | nil =>
      rw [replaceAll_nil] at hpre
      exact absurd (List.prefix_nil.mp hpre) hq'
    | cons c cs' =>
      rw [replaceAll_cons] at hpre
      obtain ⟨a, t, rfl⟩ : ∃ a t, q' = a :: t := by
        cases q' with
        | nil => exact absurd rfl hq'
        | cons a t => exact ⟨a, t, rfl⟩
      split_ifs at hpre with hp
      · obtain ⟨r, rs, rfl⟩ : ∃ r rs, rep = r :: rs := by
          cases rep with
          | nil => exact absurd rfl hrep
          | cons r rs => exact ⟨r, rs, rfl⟩
        rw [List.cons_append] at hpre
        obtain ⟨har, -⟩ := List.cons_prefix_cons.mp hpre
        exact absurd (List.mem_cons_self r rs)
          (by simpa [har] using hdis a (List.mem_cons_self a t))
      · obtain ⟨hac, ht⟩ := List.cons_prefix_cons.mp hpre
        subst hac
        cases t with
        | nil => exact List.cons_prefix_cons.mpr ⟨rfl, List.nil_prefix⟩
        | cons b t' =>
          have hlen' : cs'.length ≤ n := by simpa using hlen
          have ht' : (b :: t') <+: cs' :=
            ihn cs' hlen' (b :: t') (by simp)
              (fun x hx => hdis x (List.mem_cons_of_mem _ hx)) ht
          exact List.cons_prefix_cons.mpr ⟨rfl, ht'⟩

theorem replaceAll_not_contains (pat rep : List Char) (hpat : pat ≠ [])
    (hrep : rep ≠ []) (hdis : ∀ c ∈ rep, c ∉ pat) :
    ∀ (n : ℕ) (s : List Char), s.length ≤ n →
      containsSub pat (replaceAll pat rep s) = false := by
  intro n
  induction n with
  | zero =>
    intro s hlen
    have hnil : s = [] := List.length_eq_zero.mp (Nat.le_zero.mp hlen)
    subst hnil
    rw [replaceAll_nil]
    exact containsSub_nil_of_ne pat hpat
  | succ n ihn =>
    intro s hlen
    cases s with
    | nil =>
      rw [replaceAll_nil]
      exact containsSub_nil_of_ne pat hpat
    | cons c cs =>
      have hcslen : cs.length ≤ n := by simpa using hlen
      rw [replaceAll_cons]
      split_ifs with hp
      · rw [containsSub_rep_append pat rep _ hpat hdis]
        exact ihn _ (le_trans (by rw [List.length_drop]; exact Nat.sub_le _ _) hcslen)
      · rw [containsSub_cons]
        refine Bool.or_eq_false_iff.mpr ⟨?_, ihn cs hcslen⟩
        cases hcon : pat.isPrefixOf (c :: replaceAll pat rep cs) with
        | false => rfl
        | true =>
          exfalso
          have hppre : pat <+: c :: replaceAll pat rep cs :=
            List.isPrefixOf_iff_prefix.mp hcon
          obtain ⟨a, t, rfl⟩ : ∃ a t, pat = a :: t := by
            cases pat with
            | nil => exact absurd rfl hpat
            | cons a t => exact ⟨a, t, rfl⟩
          obtain ⟨hac, ht⟩ := List.cons_prefix_cons.mp hppre
          subst hac
          cases t with
          | nil =>
            exact hp (List.isPrefixOf_iff_prefix.mpr
              (List.cons_prefix_cons.mpr ⟨rfl, List.nil_prefix⟩))
          | cons b t' =>
            have hdis' : ∀ x ∈ b :: t', x ∉ rep := fun x hx hxr =>
              hdis x hxr (List.mem_cons_of_mem _ hx)
            have htc : (b :: t') <+: cs :=
              prefix_transfer _ rep hrep n cs hcslen (b :: t') (by simp) hdis' ht
            exact hp (List.isPrefixOf_iff_prefix.mpr
              (List.cons_prefix_cons.mpr ⟨rfl, htc⟩))

theorem replaceAll_preserves (pat rep q : List Char) (hq : q ≠ [])
    (hrep : rep ≠ []) (hdis : ∀ c ∈ rep, c ∉ q) :
    ∀ (n : ℕ) (l : List Char), l.length ≤ n → containsSub q l = false →
      containsSub q (replaceAll pat rep l) = false := by
  intro n
  induction n with
  | zero =>
    intro l hlen h
    have hnil : l = [] := List.length_eq_zero.mp (Nat.le_zero.mp hlen)
    subst hnil
    rw [replaceAll_nil]
    exact h
  | succ n ihn =>
    intro l hlen h
    cases l with
    | nil => rw [replaceAll_nil]; exact h
    | cons c cs =>
      have hcslen : cs.length ≤ n := by simpa using hlen
      have hsplit : q.isPrefixOf (c :: cs) = false ∧ containsSub q cs = false :=
        Bool.or_eq_false_iff.mp (by rw [← containsSub_cons]; exact h)
      rw [replaceAll_cons]
      split_ifs with hp
      · rw [containsSub_rep_append q rep _ hq hdis]
        have hdrop : containsSub q (cs.drop (pat.length - 1)) = false := by
          cases hd : containsSub q (cs.drop (pat.length - 1)) with
          | false => rfl
          | true => exact absurd (containsSub_of_drop q cs _ hd) (by simp [hsplit.2])
        exact ihn _ (le_trans (by rw [List.length_drop]; exact Nat.sub_le _ _) hcslen) hdrop
      · rw [containsSub_cons]
        refine Bool.or_eq_false_iff.mpr ⟨?_, ihn cs hcslen hsplit.2⟩
        cases hcon : q.isPrefixOf (c :: replaceAll pat rep cs) with
        | false => rfl
        | true =>
          exfalso
          have hppre : q <+: c :: replaceAll pat rep cs :=
            List.isPrefixOf_iff_prefix.mp hcon
          obtain ⟨a, t, rfl⟩ : ∃ a t, q = a :: t := by
            cases q with
            | nil => exact absurd rfl hq
            | cons a t => exact ⟨a, t, rfl⟩
          obtain ⟨hac, ht⟩ := List.cons_prefix_cons.mp hppre
          subst hac
          cases t with
          | nil =>
            have hpre1 : ([a] : List Char) <+: a :: cs :=
              List.cons_prefix_cons.mpr ⟨rfl, List.nil_prefix⟩
            have h2 : ([a] : List Char).isPrefixOf (a :: cs) = true :=
              List.isPrefixOf_iff_prefix.mpr hpre1
            rw [hsplit.1] at h2
            exact absurd h2 (by decide)
          | cons b t' =>
            have hdis' : ∀ x ∈ b :: t', x ∉ rep := fun x hx hxr =>
              hdis x hxr (List.mem_cons_of_mem _ hx)
            have htc : (b :: t') <+: cs :=
              prefix_transfer pat rep hrep n cs hcslen (b :: t') (by simp) hdis' ht
            have hpre2 : (a :: b :: t') <+: a :: cs :=
              List.cons_prefix_cons.mpr ⟨rfl, htc⟩
            have h2 : (a :: b :: t').isPrefixOf (a :: cs) = true :=
              List.isPrefixOf_iff_prefix.mpr hpre2
            rw [hsplit.1] at h2
            exact absurd h2 (by decide)

/-- `NG_WORDS = [/死/g, /殺/g, /暗殺/g, /処刑/g, /虐殺/g, /自殺/g]`
(VideoGenerator.tsx line 255) — the regexes are literal strings, listed in
source order. -/
def NG_WORDS : List (List Char) :=
  ["死".data, "殺".data, "暗殺".data, "処刑".data, "虐殺".data, "自殺".data]

/-- The self-censoring replacement string `"●●"`. -/
def censor : List Char := "●●".data

/-- The beep marker `"[ピー]"` that the script generator is instructed to
write in place of banned words. -/
def beepMark : List Char := "[ピー]".data

/--
Embedding of `cleanText` (VideoGenerator.tsx lines 288-294): first replace
every occurrence of the marker `"[ピー]"` with `"●●"`, then sequentially
each NG pattern in list order, each pass running globally on the output of
the previous pass.
-/
def cleanText (text : List Char) : List Char :=
  NG_WORDS.foldl (fun result reg => replaceAll reg censor result)
    (replaceAll beepMark censor text)

theorem censor_kill (pat l : List Char) (hpat : pat ≠ [])
    (hdis : ∀ c ∈ censor, c ∉ pat) :
    containsSub pat (replaceAll pat censor l) = false :=
  replaceAll_not_contains pat censor hpat (by decide) hdis l.length l le_rfl

theorem censor_step (pat q l : List Char) (hq : q ≠ [])
    (hdis : ∀ c ∈ censor, c ∉ q) (h : containsSub q l = false) :
    containsSub q (replaceAll pat censor l) = false :=
  replaceAll_preserves pat censor q hq (by decide) hdis l.length l le_rfl h

theorem cleanText_expand (t : List Char) :
    cleanText t =
      replaceAll ("自殺".data) censor (replaceAll ("虐殺".data) censor
        (replaceAll ("処刑".data) censor (replaceAll ("暗殺".data) censor
          (replaceAll ("殺".data) censor (replaceAll ("死".data) censor
            (replaceAll beepMark censor t)))))) := rfl

/-- C9 counterexample: the claim that every occurrence of a configured NG
word is replaced by `"●●"` (with characters outside occurrences left
unchanged) fails for compound NG words: on input `"暗殺"` that reading
demands output `"●●"`, but the earlier global `殺` pass rewrites the text
to `"暗●●"` first, so the `暗殺` pass finds nothing and the `暗` survives. -/
theorem cleanText_compound_cex :
    containsSub ("暗殺".data) ("暗殺".data) = true ∧
      cleanText ("暗殺".data) = ("暗●●".data) ∧
      cleanText ("暗殺".data) ≠ ("●●".data) := by
  refine ⟨by decide, by decide, by decide⟩

/-- C9 amended: for every input, the output of `cleanText` contains no
occurrence of the marker `"[ピー]"` and no occurrence of any configured NG
word; replacement is sequential (marker first, then each NG pattern in
list order, each pass global on the previous pass's output), so a compound
NG word containing `殺` is censored through that character alone, its
remaining characters staying in place — e.g. `"暗殺"` becomes `"暗●●"`,
not `"●●"`. -/
theorem cleanText_no_ng_occurrence (text : List Char) :
    containsSub beepMark (cleanText text) = false ∧
      (∀ pat ∈ NG_WORDS, containsSub pat (cleanText text) = false) ∧
      cleanText ("暗殺".data) = ("暗●●".data) := by
  refine ⟨?_, ?_, by decide⟩
  · rw [cleanText_expand]
    exact censor_step _ _ _ (by decide) (by decide)
      (censor_step _ _ _ (by decide) (by decide)
        (censor_step _ _ _ (by decide) (by decide)
          (censor_step _ _ _ (by decide) (by decide)
            (censor_step _ _ _ (by decide) (by decide)
              (censor_step _ _ _ (by decide) (by decide)
                (censor_kill _ _ (by decide) (by decide)))))))
  · intro pat hpat
    rw [cleanText_expand]
    simp only [NG_WORDS, List.mem_cons, List.not_mem_nil, or_false] at hpat
    rcases hpat with rfl | rfl | rfl | rfl | rfl | rfl
    · exact censor_step _ _ _ (by decide) (by decide)
        (censor_step _ _ _ (by decide) (by decide)
          (censor_step _ _ _ (by decide) (by decide)
            (censor_step _ _ _ (by decide) (by decide)
              (censor_step _ _ _ (by decide) (by decide)
                (censor_kill _ _ (by decide) (by decide))))))
    · exact censor_step _ _ _ (by decide) (by decide)
        (censor_step _ _ _ (by decide) (by decide)
          (censor_step _ _ _ (by decide) (by decide)
            (censor_step _ _ _ (by decide) (by decide)
              (censor_kill _ _ (by decide) (by decide)))))
    · exact censor_step _ _ _ (by decide) (by decide)
        (censor_step _ _ _ (by decide) (by decide)
          (censor_step _ _ _ (by decide) (by decide)
            (censor_kill _ _ (by decide) (by decide))))
    · exact censor_step _ _ _ (by decide) (by decide)
        (censor_step _ _ _ (by decide) (by decide)
          (censor_kill _ _ (by decide) (by decide)))
    · exact censor_step _ _ _ (by decide) (by decide)
        (censor_kill _ _ (by decide) (by decide))
    · exact censor_kill _ _ (by decide) (by decide)

theorem cleanText_no_ng_occurrence_witness :
    containsSub ("暗殺".data) (cleanText ("この暗殺は極秘".data)) = false :=
  (cleanText_no_ng_occurrence ("この暗殺は極秘".data)).2.1 ("暗殺".data) (by decide)
